import Mathlib

/-!
Shallow embedding of the disposable-secrets core from
src/Disposable_secrets.py: the in-memory cache (a Python dict keyed by the
uuid4 secret key), the Fernet crypto envelope, and the operations
create_secret, get_secret, delete_secret and the cleanup_expired loop body.
Time (datetime.utcnow) and the uuid4 key are explicit arguments; the audit
log and the HTTP layer carry no store state and are omitted.
-/

namespace DisposableSecrets

/-- Ciphertext produced by the Fernet envelope. The constructor stands for
encryption: the payload field records which plaintext was encrypted, and
decryption recovers exactly it (Fernet is authenticated and injective). -/
structure Ciphertext where
  payload : String
deriving DecidableEq

/-- Encryption of a plaintext (fernet.encrypt in the source). -/
def fernet_encrypt (plaintext : String) : Ciphertext :=
  Ciphertext.mk plaintext

/-- Decryption of a ciphertext (fernet.decrypt in the source). -/
def fernet_decrypt (c : Ciphertext) : String :=
  c.payload

/-- One entry of memory_cache: the dict value stored by create_secret,
with fields secret (encrypted), passphrase, expires_at. -/
structure SecretRecord where
  secret : Ciphertext
  passphrase : Option String
  expires_at : Int
deriving DecidableEq

/-- The memory_cache dict, modelled as an association list keyed by the
secret key string. -/
abbrev Store := List (String × SecretRecord)

/-- Dict lookup: memory_cache.get(key). -/
def Store.find : Store → String → Option SecretRecord
  | [], _ => none
  | (k, r) :: rest, key => if k = key then some r else Store.find rest key

/-- Dict removal: memory_cache.pop(key); removes every binding of key. -/
def Store.erase : Store → String → Store
  | [], _ => []
  | (k, r) :: rest, key =>
      if k = key then Store.erase rest key else (k, r) :: Store.erase rest key

/-- Dict assignment: memory_cache[key] = record. -/
def Store.insert (s : Store) (key : String) (r : SecretRecord) : Store :=
  (key, r) :: Store.erase s key

/-- Python truthiness of the stored passphrase field: None and the empty
string are falsy, every other string is truthy. -/
def pyTruthy : Option String → Bool
  | none => false
  | some s => !(s == "")

/-- Python expression data.ttl_seconds or 3600: None and 0 both fall back
to the default of 3600 seconds. -/
def ttlOrDefault : Option Int → Int
  | none => 3600
  | some t => if t = 0 then 3600 else t

/-- Pydantic default of the SecretCreate.ttl_seconds field when the caller
omits it from the request body. -/
def SecretCreate_ttl_seconds_default : Option Int := some 3600

/-- create_secret: encrypts the payload with the process Fernet key,
computes expires_at as utcnow plus the effective ttl, stores the record in
memory_cache under the fresh uuid4 key, and returns that key. -/
def create_secret (secret_key : String) (now : Int) (data_secret : String)
    (data_passphrase : Option String) (data_ttl_seconds : Option Int)
    (cache : Store) : Store × String :=
  let encrypted := fernet_encrypt data_secret
  let expires_at := now + ttlOrDefault data_ttl_seconds
  (Store.insert cache secret_key (SecretRecord.mk encrypted data_passphrase expires_at),
   secret_key)

/-- Failure modes of get_secret: 404 not found, 410 expired. -/
inductive FetchError
  | notFound
  | expired
deriving DecidableEq

/-- get_secret: pops the record first (memory_cache.pop, so a present
record is consumed unconditionally), fails 404 when absent, fails 410 when
utcnow is strictly past expires_at, else decrypts and returns the secret. -/
def get_secret (now : Int) (secret_key : String) (cache : Store) :
    Store × Except FetchError String :=
  match Store.find cache secret_key with
  | none => (cache, Except.error FetchError.notFound)
  | some secret_data =>
      if now > secret_data.expires_at then
        (Store.erase cache secret_key, Except.error FetchError.expired)
      else
        (Store.erase cache secret_key, Except.ok (fernet_decrypt secret_data.secret))

/-- Failure modes of delete_secret: 404 not found, 403 incorrect
passphrase. -/
inductive DeleteError
  | notFound
  | incorrectPassphrase
deriving DecidableEq

/-- delete_secret: 404 when the key is absent; 403 when the stored
passphrase is truthy and differs from the supplied one (store untouched in
both failure cases); otherwise pops the record and succeeds. -/
def delete_secret (secret_key : String) (passphrase : Option String)
    (cache : Store) : Store × Except DeleteError Unit :=
  match Store.find cache secret_key with
  | none => (cache, Except.error DeleteError.notFound)
  | some secret_data =>
      if pyTruthy secret_data.passphrase ∧ secret_data.passphrase ≠ passphrase then
        (cache, Except.error DeleteError.incorrectPassphrase)
      else
        (Store.erase cache secret_key, Except.ok ())

/-- One pass of the cleanup_expired loop body: collect the keys whose
expires_at < now into to_delete, pop each; the count of removed records is
the length of to_delete. -/
def cleanup_pass (now : Int) (cache : Store) : Store × Nat :=
  let to_delete := (cache.filter (fun p => decide (p.2.expires_at < now))).map Prod.fst
  (to_delete.foldl Store.erase cache, to_delete.length)

/-- The store operations a caller or the sweeper can perform, with the
wall-clock time of each call made explicit. -/
inductive Op
  | create (key : String) (now : Int) (secret : String)
      (passphrase : Option String) (ttl : Option Int)
  | fetch (now : Int) (key : String)
  | delete (key : String) (passphrase : Option String)
  | sweep (now : Int)
deriving DecidableEq

/-- The caller-visible outcome of one operation. -/
inductive OpResult
  | created (key : String)
  | fetched (r : Except FetchError String)
  | deleted (r : Except DeleteError Unit)
  | swept (n : Nat)

/-- One step of the store: dispatch an operation to the endpoint code. -/
def step (cache : Store) : Op → Store × OpResult
  | Op.create key now secret pass ttl =>
      ((create_secret key now secret pass ttl cache).1,
       OpResult.created (create_secret key now secret pass ttl cache).2)
  | Op.fetch now key =>
      ((get_secret now key cache).1, OpResult.fetched (get_secret now key cache).2)
  | Op.delete key pass =>
      ((delete_secret key pass cache).1, OpResult.deleted (delete_secret key pass cache).2)
  | Op.sweep now =>
      ((cleanup_pass now cache).1, OpResult.swept (cleanup_pass now cache).2)

/-- Run a sequence of operations, returning the final store. -/
def run : Store → List Op → Store
  | s, [] => s
  | s, op :: ops => run (step s op).1 ops

/-- The results of all fetch operations on a given key, in order, along a
run of the given operation sequence. -/
def fetchResults (key : String) : Store → List Op → List (Except FetchError String)
  | _, [] => []
  | s, Op.fetch now k :: ops =>
      if k = key then
        (get_secret now k s).2 :: fetchResults key (step s (Op.fetch now k)).1 ops
      else
        fetchResults key (step s (Op.fetch now k)).1 ops
  | s, op :: ops => fetchResults key (step s op).1 ops

/-- Whether an operation is a create on the given key; with uuid4 keys
(invariant I4) a key already used is never generated again. -/
def createsKey (key : String) : Op → Bool
  | Op.create k _ _ _ _ => k == key
  | _ => false

/-- Whether a fetch outcome delivered the plaintext. -/
def isOkFetch : Except FetchError String → Bool
  | Except.ok _ => true
  | Except.error _ => false

/-- Store states reachable from the empty memory_cache through the
endpoint operations. -/
inductive Reachable : Store → Prop
  | init : Reachable []
  | next (s : Store) (op : Op) : Reachable s → Reachable (step s op).1

/-! Concrete values used to exercise the operations. -/

/-- Sample secret key. -/
def wKey : String := "k"

/-- Sample plaintext. -/
def wPlain : String := "hello"

/-- Sample passphrase. -/
def wPass : String := "p1"

/-- Sample wrong passphrase. -/
def wPassWrong : String := "wrong"

/-- Sample record without passphrase, expiring at time 10. -/
def wRecord : SecretRecord := SecretRecord.mk (fernet_encrypt wPlain) none 10

/-- Sample passphrase-protected record, expiring at time 100. -/
def wProtRecord : SecretRecord := SecretRecord.mk (fernet_encrypt wPlain) (some wPass) 100

/-- The empty string. -/
def wEmptyString : String := ""

/-- A second sample secret key. -/
def wKey2 : String := "k2"

/-- Record whose passphrase is the empty string, expiring at time 100. -/
def wEmptyPassRecord : SecretRecord :=
  SecretRecord.mk (fernet_encrypt wPlain) (some wEmptyString) 100

/-! Basic facts about the dict model. -/

/-- Erasing a key makes it unfindable. -/
theorem find_erase_self (s : Store) (k : String) : (Store.erase s k).find k = none := by
  induction s with
  | nil => rfl
  | cons p rest ih =>
      obtain ⟨k1, r1⟩ := p
      by_cases h : k1 = k <;> simp [Store.erase, h, Store.find, ih]

/-- Erasing one key does not disturb lookups of another. -/
theorem find_erase_ne (s : Store) {k key : String} (h : key ≠ k) :
    (Store.erase s k).find key = s.find key := by
  have hk : ¬ k = key := fun hkk => h hkk.symm
  induction s with
  | nil => rfl
  | cons p rest ih =>
      obtain ⟨k1, r1⟩ := p
      by_cases h1 : k1 = k
      · subst h1
        simp [Store.erase, Store.find, hk, ih]
      · by_cases h2 : k1 = key
        · subst h2
          simp [Store.erase, Store.find, h1]
        · simp [Store.erase, Store.find, h1, h2, ih]

/-- Erasure preserves the absence of any key. -/
theorem find_none_erase {s : Store} {key : String} (k : String)
    (h : s.find key = none) : (Store.erase s k).find key = none := by
  by_cases hk : key = k
  · exact hk ▸ find_erase_self s key
  · rw [find_erase_ne s hk]; exact h

/-- A fold of erasures preserves the absence of any key. -/
theorem find_none_foldl {key : String} (keys : List String) :
    ∀ {s : Store}, s.find key = none → (keys.foldl Store.erase s).find key = none := by
  induction keys with
  | nil => exact fun h => h
  | cons k ks ih => exact fun h => ih (find_none_erase k h)

/-- Erasure only removes entries. -/
theorem mem_of_mem_erase {p : String × SecretRecord} {s : Store} {k : String}
    (h : p ∈ Store.erase s k) : p ∈ s := by
  induction s with
  | nil => cases h
  | cons q rest ih =>
      obtain ⟨k1, r1⟩ := q
      by_cases h1 : k1 = k
      · simp only [Store.erase, if_pos h1] at h
        exact List.mem_cons_of_mem _ (ih h)
      · simp only [Store.erase, if_neg h1, List.mem_cons] at h
        rcases h with h | h
        · exact h ▸ List.mem_cons_self _ _
        · exact List.mem_cons_of_mem _ (ih h)

/-- A fold of erasures only removes entries. -/
theorem mem_of_mem_foldl {p : String × SecretRecord} (keys : List String) :
    ∀ {s : Store}, p ∈ keys.foldl Store.erase s → p ∈ s := by
  induction keys with
  | nil => exact fun h => h
  | cons k ks ih => exact fun h => mem_of_mem_erase (ih h)

/-- Fetching an absent key reports 404 and leaves the cache unchanged. -/
theorem get_secret_absent {cache : Store} {key : String} (now : Int)
    (h : cache.find key = none) :
    get_secret now key cache = (cache, Except.error FetchError.notFound) := by
  simp [get_secret, h]

/-- After any fetch of a key, that key is absent from the cache. -/
theorem get_secret_fst_find (now : Int) (key : String) (cache : Store) :
    ((get_secret now key cache).1).find key = none := by
  cases h : Store.find cache key with
  | none => simp [get_secret, h]
  | some r =>
      simp only [get_secret, h]
      split <;> exact find_erase_self cache key

/-- The cache after a fetch is either unchanged or has the key erased. -/
theorem get_secret_fst_cases (now : Int) (k : String) (s : Store) :
    (get_secret now k s).1 = s ∨ (get_secret now k s).1 = Store.erase s k := by
  cases hf : Store.find s k with
  | none => left; simp [get_secret, hf]
  | some r =>
      right
      simp only [get_secret, hf]
      split <;> rfl

/-- The cache after a delete is either unchanged or has the key erased. -/
theorem delete_secret_fst_cases (k : String) (pass : Option String) (s : Store) :
    (delete_secret k pass s).1 = s ∨ (delete_secret k pass s).1 = Store.erase s k := by
  cases hf : Store.find s k with
  | none => left; simp [delete_secret, hf]
  | some r =>
      simp only [delete_secret, hf]
      split
      · left; rfl
      · right; rfl

/-- Fetching preserves the absence of any key. -/
theorem get_secret_fst_none {s : Store} {key : String} (now : Int) (k : String)
    (h : s.find key = none) : ((get_secret now k s).1).find key = none := by
  rcases get_secret_fst_cases now k s with he | he <;> rw [he]
  · exact h
  · exact find_none_erase k h

/-- Deleting preserves the absence of any key. -/
theorem delete_secret_fst_none {s : Store} {key : String} (k : String)
    (pass : Option String) (h : s.find key = none) :
    ((delete_secret k pass s).1).find key = none := by
  rcases delete_secret_fst_cases k pass s with he | he <;> rw [he]
  · exact h
  · exact find_none_erase k h

/-! Claim theorems. -/

/-- C1: Fetch is remove-then-return: when the key is present, the call
removes the record from the cache whatever the expiry outcome, a fetch of
a present-but-expired record fails with Expired while still consuming the
record, and every subsequent fetch of that key fails with NotFound. -/
theorem fetch_remove_then_return (cache : Store) (key : String) (now : Int)
    (r : SecretRecord) (h : cache.find key = some r) :
    ((get_secret now key cache).1).find key = none ∧
    (now > r.expires_at →
      (get_secret now key cache).2 = Except.error FetchError.expired) ∧
    (∀ now2 : Int, get_secret now2 key (get_secret now key cache).1 =
      ((get_secret now key cache).1, Except.error FetchError.notFound)) := by
  refine ⟨get_secret_fst_find now key cache, ?_, ?_⟩
  · intro hexp
    simp [get_secret, h, hexp]
  · intro now2
    exact get_secret_absent now2 (get_secret_fst_find now key cache)

/-- Witness for C1 at a concrete expired record. -/
theorem fetch_remove_then_return_witness :
    Store.find [(wKey, wRecord)] wKey = some wRecord ∧
    ((get_secret 20 wKey [(wKey, wRecord)]).1).find wKey = none :=
  ⟨by decide, (fetch_remove_then_return [(wKey, wRecord)] wKey 20 wRecord (by decide)).1⟩

/-- C3: round trip: creating a secret with a positive ttl and fetching it
under the same key strictly before expires_at returns exactly the original
plaintext. -/
theorem create_then_fetch_roundtrip (key : String) (now now2 : Int) (P : String)
    (pass : Option String) (T : Int) (cache : Store)
    (hT : 0 < T) (hbefore : now2 < now + T) :
    (get_secret now2 (create_secret key now P pass (some T) cache).2
      (create_secret key now P pass (some T) cache).1).2 = Except.ok P := by
  have hT0 : ¬ T = 0 := by omega
  have hnot : ¬ now2 > now + T := by omega
  simp [create_secret, get_secret, Store.insert, Store.find, ttlOrDefault, hT0, hnot,
    fernet_encrypt, fernet_decrypt]

/-- Witness for C3 at a concrete creation. -/
theorem create_then_fetch_roundtrip_witness :
    (0 : Int) < 5 ∧ (1 : Int) < 0 + 5 ∧
    (get_secret 1 (create_secret wKey 0 wPlain none (some 5) []).2
      (create_secret wKey 0 wPlain none (some 5) []).1).2 = Except.ok wPlain :=
  ⟨by decide, by decide,
   create_then_fetch_roundtrip wKey 0 1 wPlain none 5 [] (by decide) (by decide)⟩

/-- C4: error taxonomy of Fetch: NotFound exactly when the key is absent,
Expired exactly when present with the current time strictly past
expires_at, and otherwise the decrypted plaintext is returned; an expired
record is never returned successfully. -/
theorem fetch_error_taxonomy (now : Int) (key : String) (cache : Store) :
    ((get_secret now key cache).2 = Except.error FetchError.notFound ↔
      cache.find key = none) ∧
    ((get_secret now key cache).2 = Except.error FetchError.expired ↔
      ∃ r, cache.find key = some r ∧ now > r.expires_at) ∧
    (∀ P : String, (get_secret now key cache).2 = Except.ok P ↔
      ∃ r, cache.find key = some r ∧ ¬ now > r.expires_at ∧
        P = fernet_decrypt r.secret) := by
  cases h : Store.find cache key with
  | none => simp [get_secret, h]
  | some r =>
      by_cases hexp : now > r.expires_at
      · simp [get_secret, h, hexp, eq_comm]
      · simp [get_secret, h, hexp, eq_comm, le_of_not_lt hexp]

/-- C5: when the ttl is omitted the pydantic default of 3600 applies (and
an explicit null ttl falls back to the same default), so the stored record
expires exactly 3600 seconds after creation. -/
theorem create_default_ttl (key : String) (now : Int) (secret : String)
    (pass : Option String) (cache : Store) :
    ((create_secret key now secret pass SecretCreate_ttl_seconds_default cache).1).find key =
      some (SecretRecord.mk (fernet_encrypt secret) pass (now + 3600)) ∧
    ((create_secret key now secret pass none cache).1).find key =
      some (SecretRecord.mk (fernet_encrypt secret) pass (now + 3600)) := by
  constructor <;>
    simp [create_secret, Store.insert, Store.find, ttlOrDefault,
      SecretCreate_ttl_seconds_default]

/-- C10: a ttl of 0 is falsy in the Python expression ttl_seconds or 3600,
so Create with ttl 0 succeeds and stores a record expiring 3600 seconds
after creation, not an immediately-expired one. -/
theorem create_zero_ttl_defaults (key : String) (now : Int) (secret : String)
    (pass : Option String) (cache : Store) :
    (create_secret key now secret pass (some 0) cache).2 = key ∧
    ((create_secret key now secret pass (some 0) cache).1).find key =
      some (SecretRecord.mk (fernet_encrypt secret) pass (now + 3600)) := by
  constructor
  · rfl
  · simp [create_secret, Store.insert, Store.find, ttlOrDefault]

/-- C9: Delete performs no expiry check: a record still present but
already past expires_at is removed successfully by delete_secret whenever
the passphrase gate passes, with no NotFound or expiry error. -/
theorem delete_ignores_expiry (cache : Store) (key : String) (now : Int)
    (r : SecretRecord) (supplied : Option String)
    (hfind : cache.find key = some r) (_hexpired : r.expires_at < now)
    (hgate : pyTruthy r.passphrase = false ∨ r.passphrase = supplied) :
    delete_secret key supplied cache = (Store.erase cache key, Except.ok ()) ∧
    ((delete_secret key supplied cache).1).find key = none := by
  have hcond : ¬ (pyTruthy r.passphrase = true ∧ r.passphrase ≠ supplied) := by
    rcases hgate with hg | hg
    · intro hc
      rw [hg] at hc
      exact absurd hc.1 (by decide)
    · exact fun hc => hc.2 hg
  constructor
  · simp [delete_secret, hfind, hcond]
  · simp [delete_secret, hfind, hcond, find_erase_self]

/-- Witness for C9: an expired, passphrase-free record is deleted. -/
theorem delete_ignores_expiry_witness :
    Store.find [(wKey, wRecord)] wKey = some wRecord ∧
    wRecord.expires_at < 20 ∧
    ((delete_secret wKey none [(wKey, wRecord)]).1).find wKey = none :=
  ⟨by decide, by decide,
   (delete_ignores_expiry [(wKey, wRecord)] wKey 20 wRecord none (by decide) (by decide)
     (Or.inl (by decide))).2⟩

/-- C2 counterexample: a record whose passphrase is the empty string has a
passphrase, yet Python truthiness short-circuits the gate, so a delete
with a non-matching passphrase succeeds and removes the record instead of
failing with PassphraseMismatch. -/
theorem delete_empty_passphrase_bypasses_gate :
    ((delete_secret wKey (some wPassWrong) [(wKey, wEmptyPassRecord)]).2 = Except.ok () ∧
     (delete_secret wKey (some wPassWrong) [(wKey, wEmptyPassRecord)]).1 = []) ∧
    wEmptyPassRecord.passphrase = some wEmptyString ∧
    some wPassWrong ≠ wEmptyPassRecord.passphrase :=
  ⟨⟨rfl, rfl⟩, rfl, by decide⟩

/-- C2 amended: when the stored passphrase is non-empty and the supplied
one differs, delete fails with PassphraseMismatch and leaves the cache
unchanged; the record stays fetchable before expiry and deletable with the
correct passphrase. -/
theorem delete_wrong_passphrase_gate (cache : Store) (key : String)
    (r : SecretRecord) (p : String) (supplied : Option String)
    (hfind : cache.find key = some r) (hp : r.passphrase = some p) (hne : p ≠ "")
    (hmismatch : supplied ≠ some p) :
    delete_secret key supplied cache =
      (cache, Except.error DeleteError.incorrectPassphrase) ∧
    (∀ now : Int, ¬ now > r.expires_at →
      (get_secret now key cache).2 = Except.ok (fernet_decrypt r.secret)) ∧
    delete_secret key (some p) cache = (Store.erase cache key, Except.ok ()) := by
  have hcond : pyTruthy r.passphrase = true ∧ r.passphrase ≠ supplied := by
    constructor
    · rw [hp]
      simp [pyTruthy, hne]
    · rw [hp]
      exact fun hc => hmismatch hc.symm
  refine ⟨?_, ?_, ?_⟩
  · simp [delete_secret, hfind, hcond]
  · intro now hnow
    simp [get_secret, hfind, hnow]
  · have hok : ¬ (pyTruthy r.passphrase = true ∧ r.passphrase ≠ some p) :=
      fun hc => hc.2 (by rw [hp])
    simp [delete_secret, hfind, hok]

/-- Witness for the amended C2 at a concrete protected record. -/
theorem delete_wrong_passphrase_gate_witness :
    Store.find [(wKey, wProtRecord)] wKey = some wProtRecord ∧
    delete_secret wKey (some wPassWrong) [(wKey, wProtRecord)] =
      ([(wKey, wProtRecord)], Except.error DeleteError.incorrectPassphrase) :=
  ⟨by decide,
   (delete_wrong_passphrase_gate [(wKey, wProtRecord)] wKey wProtRecord wPass
     (some wPassWrong) (by decide) rfl (by decide) (by decide)).1⟩

/-- A step that is not a create of the key preserves its absence. -/
theorem step_preserves_absent {s : Store} {key : String} {op : Op}
    (hop : createsKey key op = false) (h : s.find key = none) :
    ((step s op).1).find key = none := by
  cases op with
  | create k now secret pass ttl =>
      have hk : ¬ k = key := by simpa [createsKey] using hop
      simpa [step, create_secret, Store.insert, Store.find, hk] using find_none_erase k h
  | fetch now k => simpa [step] using get_secret_fst_none now k h
  | delete k pass => simpa [step] using delete_secret_fst_none k pass h
  | sweep now => simpa [step, cleanup_pass] using find_none_foldl _ h

/-- Absence of a key survives any run without a create of that key. -/
theorem run_absent {key : String} (ops : List Op) :
    ∀ {s : Store}, (∀ op ∈ ops, createsKey key op = false) → s.find key = none →
      (run s ops).find key = none := by
  induction ops with
  | nil => exact fun _ h => h
  | cons op ops ih =>
      intro s hnc h
      exact ih (fun o ho => hnc o (List.mem_cons_of_mem _ ho))
        (step_preserves_absent (hnc op (List.mem_cons_self _ _)) h)

/-- From a state where the key is absent, every fetch of it along a run
without a create of that key fails with NotFound. -/
theorem fetchResults_absent {key : String} (ops : List Op) :
    ∀ {s : Store}, (∀ op ∈ ops, createsKey key op = false) → s.find key = none →
      ∀ r ∈ fetchResults key s ops, r = Except.error FetchError.notFound := by
  induction ops with
  | nil =>
      intro s _ _ r hr
      cases hr
  | cons op ops ih =>
      intro s hnc h r hr
      have hnc2 : ∀ o ∈ ops, createsKey key o = false :=
        fun o ho => hnc o (List.mem_cons_of_mem _ ho)
      have habs : ((step s op).1).find key = none :=
        step_preserves_absent (hnc op (List.mem_cons_self _ _)) h
      cases op with
      | fetch now k =>
          by_cases hk : k = key
          · subst hk
            have hcons : fetchResults k s (Op.fetch now k :: ops) =
                (get_secret now k s).2 :: fetchResults k (step s (Op.fetch now k)).1 ops := by
              simp [fetchResults]
            rw [hcons, List.mem_cons] at hr
            rcases hr with hr | hr
            · rw [hr, get_secret_absent now h]
            · exact ih hnc2 habs r hr
          · have hskip : fetchResults key s (Op.fetch now k :: ops) =
                fetchResults key (step s (Op.fetch now k)).1 ops := by
              simp [fetchResults, hk]
            rw [hskip] at hr
            exact ih hnc2 habs r hr
      | create k now secret pass ttl =>
          simp only [fetchResults] at hr
          exact ih hnc2 habs r hr
      | delete k pass =>
          simp only [fetchResults] at hr
          exact ih hnc2 habs r hr
      | sweep now =>
          simp only [fetchResults] at hr
          exact ih hnc2 habs r hr

/-- Along any run without a create of the key, at most one fetch of that
key delivers the plaintext. -/
theorem fetchResults_count_le_one {key : String} (ops : List Op) :
    ∀ {s : Store}, (∀ op ∈ ops, createsKey key op = false) →
      (fetchResults key s ops).countP isOkFetch ≤ 1 := by
  induction ops with
  | nil =>
      intro s _
      simp [fetchResults]
  | cons op ops ih =>
      intro s hnc
      have hnc2 : ∀ o ∈ ops, createsKey key o = false :=
        fun o ho => hnc o (List.mem_cons_of_mem _ ho)
      cases op with
      | fetch now k =>
          by_cases hk : k = key
          · subst hk
            have habs : ((step s (Op.fetch now k)).1).find k = none := by
              simpa [step] using get_secret_fst_find now k s
            have hzero :
                (fetchResults k (step s (Op.fetch now k)).1 ops).countP isOkFetch = 0 := by
              rw [List.countP_eq_zero]
              intro a ha
              rw [fetchResults_absent ops hnc2 habs a ha]
              decide
            have hcons : fetchResults k s (Op.fetch now k :: ops) =
                (get_secret now k s).2 :: fetchResults k (step s (Op.fetch now k)).1 ops := by
              simp [fetchResults]
            rw [hcons, List.countP_cons, hzero]
            cases hok : isOkFetch (get_secret now k s).2 <;> simp [hok]
          · have hskip : fetchResults key s (Op.fetch now k :: ops) =
                fetchResults key (step s (Op.fetch now k)).1 ops := by
              simp [fetchResults, hk]
            rw [hskip]
            exact ih hnc2
      | create k now secret pass ttl =>
          simp only [fetchResults]
          exact ih hnc2
      | delete k pass =>
          simp only [fetchResults]
          exact ih hnc2
      | sweep now =>
          simp only [fetchResults]
          exact ih hnc2

/-- C6: single delivery: along any run of operations none of which is a
create of the key (uuid4 keys are never reused, invariant I4), once the
key is absent it stays absent and every later fetch of it fails with
NotFound; and in total at most one fetch of the key ever succeeds. -/
theorem single_delivery (key : String) (s : Store) (ops : List Op)
    (hfresh : ∀ op ∈ ops, createsKey key op = false) :
    (s.find key = none →
      (run s ops).find key = none ∧
      ∀ r ∈ fetchResults key s ops, r = Except.error FetchError.notFound) ∧
    (fetchResults key s ops).countP isOkFetch ≤ 1 :=
  ⟨fun h => ⟨run_absent ops hfresh h, fetchResults_absent ops hfresh h⟩,
   fetchResults_count_le_one ops hfresh⟩

/-- Witness for C6: two successive fetches of the same fresh record. -/
theorem single_delivery_witness :
    (∀ op ∈ [Op.fetch 0 wKey, Op.fetch 1 wKey], createsKey wKey op = false) ∧
    (fetchResults wKey [(wKey, wRecord)] [Op.fetch 0 wKey, Op.fetch 1 wKey]).countP
      isOkFetch ≤ 1 :=
  ⟨by decide,
   (single_delivery wKey [(wKey, wRecord)] [Op.fetch 0 wKey, Op.fetch 1 wKey]
     (by decide)).2⟩

/-- Erasure is a filter on the key. -/
theorem erase_eq_filter (s : Store) (k : String) :
    Store.erase s k = s.filter (fun p => decide (¬ p.1 = k)) := by
  induction s with
  | nil => rfl
  | cons p rest ih =>
      obtain ⟨k1, r1⟩ := p
      by_cases h : k1 = k <;> simp [Store.erase, h, List.filter_cons, ih]

/-- A fold of erasures is a filter on key membership. -/
theorem foldl_erase_eq_filter (keys : List String) :
    ∀ s : Store, keys.foldl Store.erase s =
      s.filter (fun p => decide (¬ p.1 ∈ keys)) := by
  induction keys with
  | nil =>
      intro s
      simp
  | cons k ks ih =>
      intro s
      rw [List.foldl_cons, ih, erase_eq_filter, List.filter_filter]
      apply List.filter_congr
      intro p _
      by_cases h1 : p.1 = k <;> by_cases h2 : p.1 ∈ ks <;> simp [h1, h2]

/-- C7: one cleanup pass removes exactly the records with expires_at
strictly before now, keeps every other record, and the count of removed
records equals the number of expired ones. -/
theorem sweep_removes_exactly_expired (now : Int) (cache : Store)
    (hnd : (cache.map Prod.fst).Nodup) :
    (cleanup_pass now cache).1 =
      cache.filter (fun p => decide (¬ p.2.expires_at < now)) ∧
    (cleanup_pass now cache).2 =
      (cache.filter (fun p => decide (p.2.expires_at < now))).length := by
  constructor
  · have h1 : (cleanup_pass now cache).1 =
        ((cache.filter fun p => decide (p.2.expires_at < now)).map Prod.fst).foldl
          Store.erase cache := rfl
    rw [h1, foldl_erase_eq_filter]
    apply List.filter_congr
    intro p hp
    have hiff : p.1 ∈ ((cache.filter fun q => decide (q.2.expires_at < now)).map Prod.fst) ↔
        p.2.expires_at < now := by
      constructor
      · intro hmem
        rcases List.mem_map.mp hmem with ⟨q, hq, hq1⟩
        have hqc := List.mem_filter.mp hq
        have hqp : q = p := List.inj_on_of_nodup_map hnd hqc.1 hp hq1
        rw [← hqp]
        exact of_decide_eq_true hqc.2
      · intro hexp
        exact List.mem_map.mpr ⟨p, List.mem_filter.mpr ⟨hp, decide_eq_true hexp⟩, rfl⟩
    rw [decide_eq_decide]
    exact not_congr hiff
  · simp [cleanup_pass]

/-- Witness for C7: a cache with one expired and one live record. -/
theorem sweep_removes_exactly_expired_witness :
    ((([(wKey, wRecord), (wKey2, wProtRecord)] : Store).map Prod.fst).Nodup) ∧
    (cleanup_pass 20 [(wKey, wRecord), (wKey2, wProtRecord)]).2 =
      (([(wKey, wRecord), (wKey2, wProtRecord)] : Store).filter
        (fun p => decide (p.2.expires_at < 20))).length :=
  ⟨by decide, (sweep_removes_exactly_expired 20 [(wKey, wRecord), (wKey2, wProtRecord)]
    (by decide)).2⟩

/-- Any entry of the cache after a step was already there, unless the step
was the create that put it there with an encrypted payload. -/
theorem mem_step_fst {p : String × SecretRecord} {s : Store} {op : Op}
    (h : p ∈ (step s op).1) :
    p ∈ s ∨ ∃ pl : String, p.2.secret = fernet_encrypt pl := by
  cases op with
  | create k now secret pass ttl =>
      have h2 : p ∈ (k, SecretRecord.mk (fernet_encrypt secret) pass
          (now + ttlOrDefault ttl)) :: Store.erase s k := by
        simpa [step, create_secret, Store.insert] using h
      rcases List.mem_cons.mp h2 with h3 | h3
      · exact Or.inr ⟨secret, by rw [h3]⟩
      · exact Or.inl (mem_of_mem_erase h3)
  | fetch now k =>
      rcases get_secret_fst_cases now k s with he | he <;> rw [step] at h
      · rw [he] at h
        exact Or.inl h
      · rw [he] at h
        exact Or.inl (mem_of_mem_erase h)
  | delete k pass =>
      rcases delete_secret_fst_cases k pass s with he | he <;> rw [step] at h
      · rw [he] at h
        exact Or.inl h
      · rw [he] at h
        exact Or.inl (mem_of_mem_erase h)
  | sweep now =>
      exact Or.inl (mem_of_mem_foldl _ (by simpa [step, cleanup_pass] using h))

/-- C8: no plaintext at rest: in every reachable cache state each stored
record holds the Fernet encryption of some plaintext, and the record
stored by create_secret is exactly the encryption of the submitted
secret; the decrypted value appears only in the result of a successful
fetch, never in the cache. -/
theorem no_plaintext_at_rest (s : Store) (hs : Reachable s) :
    (∀ p ∈ s, ∃ pl : String, p.2.secret = fernet_encrypt pl) ∧
    (∀ (key : String) (now : Int) (secret : String) (pass : Option String)
        (ttl : Option Int) (cache : Store),
      ((create_secret key now secret pass ttl cache).1).find key =
        some (SecretRecord.mk (fernet_encrypt secret) pass (now + ttlOrDefault ttl))) := by
  constructor
  · induction hs with
    | init =>
        intro p hp
        cases hp
    | next s2 op hs2 ih =>
        intro p hp
        rcases mem_step_fst hp with h | h
        · exact ih p h
        · exact h
  · intro key now secret pass ttl cache
    simp [create_secret, Store.insert, Store.find]

/-- Witness for C8 at the record stored by one create into the empty
cache. -/
theorem no_plaintext_at_rest_witness :
    ∃ pl : String,
      ((wKey, SecretRecord.mk (fernet_encrypt wPlain) none (0 + 3600)).2).secret =
        fernet_encrypt pl :=
  (no_plaintext_at_rest (step [] (Op.create wKey 0 wPlain none none)).1
    (Reachable.next [] (Op.create wKey 0 wPlain none none) Reachable.init)).1
    (wKey, SecretRecord.mk (fernet_encrypt wPlain) none (0 + 3600)) (by decide)

end DisposableSecrets
